import Mathlib

/-!
Verification of the real-time pitch-detection and classification pipeline of the
simply-quiz frontend (component LiveVoiceAnalyzer).  The JavaScript numeric code
is embedded over the exact rationals; the one transcendental operation of the
source (Math.log2 inside hzToNote) is embedded over the reals.  Each definition
below is a direct transcription of the correspondingly named function or class
of the source file.
-/

namespace SimplyQuiz

/-! ### Fundamental-frequency estimator: autoCorrelate -/

/-- Index set of the JavaScript loop for (let i = 0; i < n; i += step):
the multiples of step below n, in increasing order. -/
def stride (n step : ℕ) : List ℕ :=
  (List.range ((n + step - 1) / step)).map (fun k => k * step)

/-- Squared RMS energy over every 4th sample.  The source computes
rms = Math.sqrt(s / (size / 4)) and tests rms < 0.01; since the square root is
strictly monotone on nonnegative numbers that test is equivalent to
s / (size / 4) < 0.01 ^ 2, the square-free form used here so that the
definition stays computable over the rationals. -/
def rmsSqOf (buf : ℕ → ℚ) (size : ℕ) : ℚ :=
  (((stride size 4).map (fun i => buf i * buf i)).sum) / ((size : ℚ) / 4)

/-- Mean over every 4th sample, as in the variance check of autoCorrelate. -/
def meanOf (buf : ℕ → ℚ) (size : ℕ) : ℚ :=
  (((stride size 4).map (fun i => buf i)).sum) / ((size : ℚ) / 4)

/-- Variance over every 4th sample, as in the variance check of autoCorrelate. -/
def varOf (buf : ℕ → ℚ) (size : ℕ) : ℚ :=
  (((stride size 4).map (fun i => (buf i - meanOf buf size) ^ 2)).sum) / ((size : ℚ) / 4)

/-- Normalized difference correlation at one candidate lag, stepping by 2:
correlation = 1 - (sum of absolute differences / halfSize) * 2. -/
def corrAt (buf : ℕ → ℚ) (halfSize offset : ℕ) : ℚ :=
  1 - (((stride halfSize 2).map (fun i => |buf i - buf (i + offset)|)).sum) / (halfSize : ℚ) * 2

/-- State of the lag-search loop of autoCorrelate: bestOffset (initially -1),
bestCorrelation (initially 0.8) and lastCorrelation (initially 1). -/
structure ACState where
  bestOffset : ℤ
  bestCorrelation : ℚ
  lastCorrelation : ℚ
deriving DecidableEq

/-- One iteration of the lag-search loop: a lag is adopted only if its
correlation exceeds both the running best and the immediately preceding
correlation; lastCorrelation is updated unconditionally. -/
def acStep (buf : ℕ → ℚ) (halfSize : ℕ) (st : ACState) (offset : ℕ) : ACState :=
  let correlation := corrAt buf halfSize offset
  if correlation > st.bestCorrelation ∧ correlation > st.lastCorrelation then
    ⟨(offset : ℤ), correlation, correlation⟩
  else
    ⟨st.bestOffset, st.bestCorrelation, correlation⟩

/-- Candidate lags of autoCorrelate: minPeriod = floor(sampleRate / 1000) up to
(exclusive) min(maxPeriod, halfSize) with maxPeriod = floor(sampleRate / 70).
Sample rates are positive in every capture context, so the floors are
nonnegative and taking toNat is exact. -/
def acOffsets (size : ℕ) (sampleRate : ℚ) : List ℕ :=
  List.range' (⌊sampleRate / 1000⌋).toNat
    (min (⌊sampleRate / 70⌋).toNat (size / 2) - (⌊sampleRate / 1000⌋).toNat)

/-- Result state of the lag-search loop of autoCorrelate. -/
def acFinal (buf : ℕ → ℚ) (size : ℕ) (sampleRate : ℚ) : ACState :=
  (acOffsets size sampleRate).foldl (acStep buf (size / 2)) ⟨-1, 0.8, 1⟩

/-- Transcription of autoCorrelate(buffer, sampleRate).  Returns -1 as the
unvoiced sentinel, exactly as the source does, otherwise
sampleRate / bestOffset. -/
def autoCorrelate (buf : ℕ → ℚ) (size : ℕ) (sampleRate : ℚ) : ℚ :=
  if rmsSqOf buf size < 0.01 ^ 2 then -1
  else if varOf buf size < 0.0001 then -1
  else if (acFinal buf size sampleRate).bestCorrelation < 0.8 then -1
  else if (acFinal buf size sampleRate).bestOffset > 0 then
    sampleRate / ((acFinal buf size sampleRate).bestOffset : ℚ)
  else -1

/-! ### MedianFilter -/

/-- Transcription of class MedianFilter: a size bound and the value buffer. -/
structure MedianFilter where
  size : ℕ
  buffer : List ℚ
deriving DecidableEq

/-- Constructor MedianFilter(size): empty buffer. -/
def MedianFilter.make (size : ℕ) : MedianFilter := ⟨size, []⟩

/-- Method push(value): append, then shift the oldest value out when the
buffer exceeds the size bound. -/
def MedianFilter.push (f : MedianFilter) (value : ℚ) : MedianFilter :=
  let b := f.buffer ++ [value]
  ⟨f.size, if b.length > f.size then b.tail else b⟩

/-- Folding push over a list of values, oldest first. -/
def MedianFilter.pushAll (f : MedianFilter) (l : List ℚ) : MedianFilter :=
  l.foldl MedianFilter.push f

/-- Method get(): 0 on an empty buffer; otherwise the middle element of the
ascending sort for an odd count, and the mean of the two middle elements for an
even count.  The source sorts with the numeric comparator (a, b) => a - b,
which produces exactly the ascending sorted permutation modelled here. -/
def MedianFilter.get (f : MedianFilter) : ℚ :=
  if f.buffer.length = 0 then 0
  else
    let sorted := f.buffer.insertionSort (· ≤ ·)
    let mid := sorted.length / 2
    if sorted.length % 2 = 1 then sorted.getD mid 0
    else (sorted.getD (mid - 1) 0 + sorted.getD mid 0) / 2

/-! ### ExponentialSmoothing -/

/-- Transcription of class ExponentialSmoothing.  The source names the flag
initialized; it is false until the first update seeds the value. -/
structure ExponentialSmoothing where
  alpha : ℚ
  value : ℚ
  isInit : Bool
deriving DecidableEq

/-- Constructor ExponentialSmoothing(alpha): value 0, flag false. -/
def ExponentialSmoothing.make (alpha : ℚ) : ExponentialSmoothing := ⟨alpha, 0, false⟩

/-- Method update(newValue): seed on first call, otherwise
value = alpha * newValue + (1 - alpha) * value.  Returns the new value
together with the new state. -/
def ExponentialSmoothing.update (s : ExponentialSmoothing) (newValue : ℚ) :
    ℚ × ExponentialSmoothing :=
  if s.isInit = false then (newValue, ⟨s.alpha, newValue, true⟩)
  else
    let v := s.alpha * newValue + (1 - s.alpha) * s.value
    (v, ⟨s.alpha, v, true⟩)

/-- Method reset(): value 0, flag false. -/
def ExponentialSmoothing.reset (s : ExponentialSmoothing) : ExponentialSmoothing :=
  ⟨s.alpha, 0, false⟩

/-! ### Note mapper: hzToNote -/

/-- Chromatic note names of the source, starting at C: the notes array of
hzToNote, written as the concatenation of its two halves. -/
def noteNames : List String :=
  ["C", "C#", "D", "D#", "E", "F"] ++ ["F#", "G", "G#", "A", "A#", "B"]

/-- Result of hzToNote: letter class and octave.  The source additionally
derives the Russian name and the display strings from these same two values. -/
structure Note where
  note : String
  octave : ℤ
deriving DecidableEq

/-- Transcription of hzToNote(frequency).  The source returns an explicit
em-dash sentinel object for frequency <= 0 or non-finite input, modelled as
none; non-finite floating-point values have no counterpart in the reals.
JavaScript % is truncating remainder (Int.tmod) and Math.floor of the
quotient is flooring division (Int.fdiv). -/
noncomputable def hzToNote (frequency : ℝ) : Option Note :=
  if frequency ≤ 0 then none
  else
    let semitones : ℝ := 12 * Real.logb 2 (frequency / 440)
    let totalSemitones : ℤ := round semitones + 9 + 4 * 12
    let octave : ℤ := totalSemitones.fdiv 12
    let noteIndex : ℤ := ((totalSemitones.tmod 12) + 12).tmod 12
    some ⟨noteNames.getD noteIndex.toNat "C", octave⟩

/-! ### Voice classifier: detectVoiceType -/

/-- Voice type tags of detectVoiceType.  The source pairs each tag with a
display name and description, irrelevant to classification. -/
inductive VoiceType where
  | bass
  | baritone
  | tenor
  | alto
  | mezzoSoprano
  | soprano
deriving DecidableEq

/-- Transcription of detectVoiceType(minHz, maxHz). -/
def detectVoiceType (minHz maxHz : ℚ) : VoiceType :=
  let medianHz := (minHz + maxHz) / 2
  if medianHz < 130 then .bass
  else if medianHz < 165 then .baritone
  else if medianHz < 260 then .tenor
  else if medianHz < 350 then .alto
  else if medianHz < 440 then .mezzoSoprano
  else .soprano

/-- Modelled from the spec: the six-row threshold ladder written as explicit
interval conditions, first match wins, with the boundary value of each row
belonging to the row below it (130 itself is baritone, 165 itself is tenor,
and so on). -/
def ladderSpec (medianHz : ℚ) : VoiceType :=
  if medianHz < 130 then .bass
  else if 130 ≤ medianHz ∧ medianHz < 165 then .baritone
  else if 165 ≤ medianHz ∧ medianHz < 260 then .tenor
  else if 260 ≤ medianHz ∧ medianHz < 350 then .alto
  else if 350 ≤ medianHz ∧ medianHz < 440 then .mezzoSoprano
  else .soprano

/-! ### Range accumulator: the setStats updater inside detectPitch -/

/-- Range statistics state: min starts at the Infinity sentinel (the top
element), max at 0, validSamples at 0. -/
structure Stats where
  min : WithTop ℚ
  max : ℚ
  validSamples : ℕ
deriving DecidableEq

/-- Initial statistics, as set by startRecording and reset. -/
def statsInit : Stats := ⟨⊤, 0, 0⟩

/-- Gate of the setStats updater: newValidSamples >= 2 and the smoothed value
inside the 70..600 band.  newValidSamples counts the current sample. -/
def isValidSample (prev : Stats) (smoothed : ℚ) : Prop :=
  prev.validSamples + 1 ≥ 2 ∧ smoothed < 600 ∧ 70 < smoothed

instance (prev : Stats) (smoothed : ℚ) : Decidable (isValidSample prev smoothed) := by
  unfold isValidSample; infer_instance

/-- Transcription of the setStats updater inside detectPitch: the sample count
always advances; min and max move only when the gate passes, each replacing its
sentinel with the sample before taking min respectively max. -/
def statsUpdate (prev : Stats) (smoothed : ℚ) : Stats :=
  if isValidSample prev smoothed then
    { min := min (if prev.min = ⊤ then (smoothed : WithTop ℚ) else prev.min)
        (smoothed : WithTop ℚ)
      max := max (if prev.max = 0 then smoothed else prev.max) smoothed
      validSamples := prev.validSamples + 1 }
  else
    { prev with validSamples := prev.validSamples + 1 }

/-- State after feeding a whole session of accepted smoothed values. -/
def statsRun (l : List ℚ) : Stats := l.foldl statsUpdate statsInit

/-- Values of a run that pass the min/max gate, in order. -/
def acceptedVals : Stats → List ℚ → List ℚ
  | _, [] => []
  | s, v :: rest =>
    if isValidSample s v then v :: acceptedVals (statsUpdate s v) rest
    else acceptedVals (statsUpdate s v) rest

/-! ### Session finish and analysis hand-off -/

/-- Network requests that sendForAnalysis can issue, in order. -/
inductive ApiCall where
  | uploadAudio
  | analyzeVoice (sessionId : String)
deriving DecidableEq

/-- Payload of a successful analyze-voice response; its structure is irrelevant
to the control flow modelled here. -/
structure ResultPayload where
  data : String
deriving DecidableEq

/-- UI-facing outcome of sendForAnalysis: the error message if any, whether the
results screen is shown, the analysis payload if any, and the network calls
that were issued. -/
structure AnalysisOutcome where
  error : Option String
  showResults : Bool
  analysisData : Option ResultPayload
  calls : List ApiCall
deriving DecidableEq

/-- Error text of the empty-recording branch of sendForAnalysis. -/
def noAudioMsg : String :=
  "Не удалось записать аудио. Убедись, что микрофон работает и разрешен доступ."

/-- Error text thrown when the assembled blob has size zero. -/
def emptyFileMsg : String := "Записанный файл пуст"

/-- Transcription of sendForAnalysis.  The audio chunks are modelled by their
byte sizes; the two backend responses are supplied as environment parameters
(ok with a session id respectively a payload, or an error message already
holding the detail-or-default text the source extracts). -/
def sendForAnalysis (chunks : List ℕ) (uploadReply : Except String String)
    (analyzeReply : Except String ResultPayload) : AnalysisOutcome :=
  if chunks.length = 0 then
    { error := some noAudioMsg, showResults := true, analysisData := none, calls := [] }
  else if chunks.sum = 0 then
    { error := some emptyFileMsg, showResults := true, analysisData := none, calls := [] }
  else
    match uploadReply with
    | .error e =>
        { error := some e, showResults := true, analysisData := none,
          calls := [.uploadAudio] }
    | .ok sessionId =>
        match analyzeReply with
        | .error e =>
            { error := some e, showResults := true, analysisData := none,
              calls := [.uploadAudio, .analyzeVoice sessionId] }
        | .ok payload =>
            { error := none, showResults := true, analysisData := some payload,
              calls := [.uploadAudio, .analyzeVoice sessionId] }

/-- Session aggregate at finish time: the range statistics and the audio chunk
sizes accumulated by the recorder (already flushed). -/
structure Session where
  stats : Stats
  chunks : List ℕ
deriving DecidableEq

/-- Transcription of handleFinish: recording is stopped, the recorder is
awaited (so the chunk list is final), then sendForAnalysis runs on the
accumulated chunks. -/
def handleFinish (s : Session) (uploadReply : Except String String)
    (analyzeReply : Except String ResultPayload) : AnalysisOutcome :=
  sendForAnalysis s.chunks uploadReply analyzeReply

/-- Concrete 12-sample frame, engineered so that the estimator adopts lag 2 at
sample rate 240 and returns 120 Hz.  Used only to exhibit a voiced return
value. -/
def demoBuf : ℕ → ℚ := fun i =>
  if i = 0 then 1 else if i = 2 then 1 else if i = 4 then 1 else if i = 6 then 1
  else if i = 8 then -1 else 0

/-- Modelled from the claim wording for C10: the median of the values pushed so
far is 0 for an empty list, the middle element of the ascending sort for an odd
count, and the arithmetic mean of the two middle elements of the ascending sort
for an even count. -/
def specMedian (l : List ℚ) : ℚ :=
  if l.length = 0 then 0
  else
    let s := l.insertionSort (· ≤ ·)
    if l.length % 2 = 1 then s.getD (l.length / 2) 0
    else (s.getD (l.length / 2 - 1) 0 + s.getD (l.length / 2) 0) / 2

/-! ### Helper lemmas about the estimator loop -/

/-- Correlation values never exceed 1, because the summed absolute differences
are nonnegative. -/
theorem corrAt_le_one (buf : ℕ → ℚ) (halfSize offset : ℕ) :
    corrAt buf halfSize offset ≤ 1 := by
  unfold corrAt
  have hs : 0 ≤ (((stride halfSize 2).map (fun i => |buf i - buf (i + offset)|)).sum) := by
    apply List.sum_nonneg
    intro x hx
    simp only [List.mem_map] at hx
    obtain ⟨i, _, rfl⟩ := hx
    exact abs_nonneg _
  have hd : 0 ≤ (((stride halfSize 2).map
      (fun i => |buf i - buf (i + offset)|)).sum) / (halfSize : ℚ) * 2 := by
    have : (0:ℚ) ≤ (halfSize : ℚ) := by positivity
    positivity
  linarith

/-- A loop step whose incoming lastCorrelation is 1 can never adopt the lag,
since no correlation exceeds 1. -/
theorem acStep_of_lastCorr_one (buf : ℕ → ℚ) (halfSize : ℕ) (st : ACState)
    (offset : ℕ) (h : st.lastCorrelation = 1) :
    acStep buf halfSize st offset =
      ⟨st.bestOffset, st.bestCorrelation, corrAt buf halfSize offset⟩ := by
  unfold acStep
  rw [if_neg]
  rintro ⟨-, h2⟩
  rw [h] at h2
  exact absurd h2 (not_lt.2 (corrAt_le_one buf halfSize offset))

/-- Unfolded form of one loop step, with the let binding zeta-reduced. -/
theorem acStep_eq (buf : ℕ → ℚ) (halfSize : ℕ) (st : ACState) (offset : ℕ) :
    acStep buf halfSize st offset =
      if corrAt buf halfSize offset > st.bestCorrelation ∧
          corrAt buf halfSize offset > st.lastCorrelation then
        ⟨(offset : ℤ), corrAt buf halfSize offset, corrAt buf halfSize offset⟩
      else
        ⟨st.bestOffset, st.bestCorrelation, corrAt buf halfSize offset⟩ := rfl

/-- One loop step either keeps bestOffset or sets it to the processed lag. -/
theorem acStep_bestOffset (buf : ℕ → ℚ) (halfSize : ℕ) (st : ACState) (offset : ℕ) :
    (acStep buf halfSize st offset).bestOffset = st.bestOffset ∨
      (acStep buf halfSize st offset).bestOffset = (offset : ℤ) := by
  rw [acStep_eq]
  split
  · right; rfl
  · left; rfl

/-- After folding the loop over any lag list, bestOffset is either the initial
one or one of the processed lags. -/
theorem foldl_acStep_bestOffset (buf : ℕ → ℚ) (halfSize : ℕ) :
    ∀ (L : List ℕ) (st : ACState),
      (L.foldl (acStep buf halfSize) st).bestOffset = st.bestOffset ∨
        ∃ o ∈ L, (L.foldl (acStep buf halfSize) st).bestOffset = (o : ℤ) := by
  intro L
  induction L with
  | nil => intro st; left; rfl
  | cons a tl ih =>
    intro st
    rw [List.foldl_cons]
    rcases ih (acStep buf halfSize st a) with h1 | ⟨o, ho, h2⟩
    · rcases acStep_bestOffset buf halfSize st a with h2 | h2
      · left; rw [h1, h2]
      · right; exact ⟨a, List.mem_cons_self a tl, by rw [h1, h2]⟩
    · right; exact ⟨o, List.mem_cons_of_mem a ho, h2⟩

/-- When the estimator returns a voiced value, its bestOffset was adopted at a
lag strictly after the first candidate and strictly below min(maxPeriod,
halfSize). -/
theorem acFinal_bestOffset_range (buf : ℕ → ℚ) (size : ℕ) (sampleRate : ℚ)
    (h : (acFinal buf size sampleRate).bestOffset > 0) :
    ∃ o : ℕ, (acFinal buf size sampleRate).bestOffset = (o : ℤ) ∧
      (⌊sampleRate / 1000⌋).toNat + 1 ≤ o ∧
      o < min (⌊sampleRate / 70⌋).toNat (size / 2) := by
  unfold acFinal acOffsets at *
  rcases hn : min (⌊sampleRate / 70⌋).toNat (size / 2) - (⌊sampleRate / 1000⌋).toNat with - | m
  · rw [hn] at h
    simp only [List.range'_zero, List.foldl_nil] at h
    exact absurd h (by norm_num)
  · rw [hn] at h
    rw [List.range'_succ, List.foldl_cons,
      acStep_of_lastCorr_one buf (size / 2) _ _ rfl] at h ⊢
    rcases foldl_acStep_bestOffset buf (size / 2) (List.range' ((⌊sampleRate / 1000⌋).toNat + 1) m)
        ⟨(-1 : ℤ), 0.8, corrAt buf (size / 2) (⌊sampleRate / 1000⌋).toNat⟩ with h1 | ⟨o, ho, h2⟩
    · rw [h1] at h
      exact absurd h (by norm_num)
    · refine ⟨o, h2, ?_, ?_⟩
      · rw [List.mem_range'] at ho
        obtain ⟨i, _, rfl⟩ := ho
        omega
      · rw [List.mem_range'] at ho
        obtain ⟨i, hi, rfl⟩ := ho
        omega

/-! ### C3: the voiced band of the estimator -/

/-- C3.  Estimator band postcondition: whenever autoCorrelate returns a voiced
frequency (not the unvoiced sentinel -1) for a positive sample rate, that
frequency lies strictly inside the 70 to 1000 Hz band. -/
theorem autoCorrelate_voiced_band (buf : ℕ → ℚ) (size : ℕ) (sampleRate : ℚ)
    (hsr : 0 < sampleRate) (hv : autoCorrelate buf size sampleRate ≠ -1) :
    70 < autoCorrelate buf size sampleRate ∧ autoCorrelate buf size sampleRate < 1000 := by
  by_cases h1 : rmsSqOf buf size < 0.01 ^ 2
  · exact absurd (by unfold autoCorrelate; rw [if_pos h1]) hv
  by_cases h2 : varOf buf size < 0.0001
  · exact absurd (by unfold autoCorrelate; rw [if_neg h1, if_pos h2]) hv
  by_cases h3 : (acFinal buf size sampleRate).bestCorrelation < 0.8
  · exact absurd (by unfold autoCorrelate; rw [if_neg h1, if_neg h2, if_pos h3]) hv
  by_cases h4 : (acFinal buf size sampleRate).bestOffset > 0
  · have hval : autoCorrelate buf size sampleRate =
        sampleRate / ((acFinal buf size sampleRate).bestOffset : ℚ) := by
      unfold autoCorrelate
      rw [if_neg h1, if_neg h2, if_neg h3, if_pos h4]
    obtain ⟨o, hoeq, hlo, hhi⟩ := acFinal_bestOffset_range buf size sampleRate h4
    have hopos : 0 < o := by omega
    have hoQ : ((acFinal buf size sampleRate).bestOffset : ℚ) = (o : ℚ) := by
      rw [hoeq]; push_cast; ring
    have hoQpos : (0:ℚ) < (o : ℚ) := by exact_mod_cast hopos
    have hupper : sampleRate / 1000 < (o : ℚ) := by
      have hfloor : sampleRate / 1000 - 1 < ((⌊sampleRate / 1000⌋ : ℤ) : ℚ) :=
        Int.sub_one_lt_floor _
      have htoNat : ((⌊sampleRate / 1000⌋ : ℤ) : ℚ) ≤ (((⌊sampleRate / 1000⌋).toNat : ℕ) : ℚ) := by
        exact_mod_cast Int.self_le_toNat _
      have : ((((⌊sampleRate / 1000⌋).toNat : ℕ) : ℚ)) + 1 ≤ (o : ℚ) := by
        exact_mod_cast hlo
      linarith
    have hlower : (o : ℚ) < sampleRate / 70 := by
      have hnn : (0:ℤ) ≤ ⌊sampleRate / 70⌋ := Int.floor_nonneg.2 (by positivity)
      have h70 : o < (⌊sampleRate / 70⌋).toNat := by omega
      have hcast : (((⌊sampleRate / 70⌋).toNat : ℕ) : ℚ) = ((⌊sampleRate / 70⌋ : ℤ) : ℚ) := by
        exact_mod_cast congrArg (fun z : ℤ => (z : ℚ)) (Int.toNat_of_nonneg hnn)
      have hfl : ((⌊sampleRate / 70⌋ : ℤ) : ℚ) ≤ sampleRate / 70 := Int.floor_le _
      have : ((o : ℕ) : ℚ) < (((⌊sampleRate / 70⌋).toNat : ℕ) : ℚ) := by exact_mod_cast h70
      linarith
    constructor
    · rw [hval, hoQ]
      rw [lt_div_iff₀ hoQpos]
      have := (lt_div_iff₀ (by norm_num : (0:ℚ) < 70)).1 hlower
      linarith
    · rw [hval, hoQ]
      rw [div_lt_iff₀ hoQpos]
      have := (div_lt_iff₀ (by norm_num : (0:ℚ) < 1000)).1 hupper
      linarith
  · exact absurd (by unfold autoCorrelate; rw [if_neg h1, if_neg h2, if_neg h3, if_neg h4]) hv

/-- The demo frame is voiced: the estimator returns 120 Hz on it. -/
theorem demoBuf_voiced : autoCorrelate demoBuf 12 240 = 120 := by
  have hs4 : stride 12 4 = [0, 4, 8] := rfl
  have hs2 : stride 6 2 = [0, 2, 4] := rfl
  have hrms : rmsSqOf demoBuf 12 = 1 := by
    unfold rmsSqOf
    rw [hs4]
    norm_num [demoBuf]
  have hmean : meanOf demoBuf 12 = 1/3 := by
    unfold meanOf
    rw [hs4]
    norm_num [demoBuf]
  have hvar : varOf demoBuf 12 = 8/9 := by
    unfold varOf
    rw [hs4, hmean]
    norm_num [demoBuf]
  have hc0 : corrAt demoBuf 6 0 = 1 := by
    unfold corrAt
    rw [hs2]
    norm_num [demoBuf]
  have hc1 : corrAt demoBuf 6 1 = 0 := by
    unfold corrAt
    rw [hs2]
    norm_num [demoBuf]
  have hc2 : corrAt demoBuf 6 2 = 1 := by
    unfold corrAt
    rw [hs2]
    norm_num [demoBuf]
  have hoff : acOffsets 12 240 = [0, 1, 2] := by
    unfold acOffsets
    norm_num
    rfl
  have hfin : acFinal demoBuf 12 240 = ⟨2, 1, 1⟩ := by
    unfold acFinal
    rw [hoff]
    simp only [List.foldl_cons, List.foldl_nil]
    norm_num [acStep_eq, hc0, hc1, hc2]
  unfold autoCorrelate
  rw [hrms, hvar, hfin]
  norm_num

/-- Witness for C3 at a concrete voiced input: sample rate 240 is positive, the
demo frame is voiced, and the returned 120 Hz lies in the 70..1000 band. -/
theorem autoCorrelate_voiced_band_witness :
    (0:ℚ) < 240 ∧ autoCorrelate demoBuf 12 240 ≠ -1 ∧
      70 < autoCorrelate demoBuf 12 240 ∧ autoCorrelate demoBuf 12 240 < 1000 := by
  have hne : autoCorrelate demoBuf 12 240 ≠ -1 := by
    rw [demoBuf_voiced]; norm_num
  exact ⟨by norm_num, hne, autoCorrelate_voiced_band demoBuf 12 240 (by norm_num) hne⟩

/-! ### Constant frames: helper lemmas for the energy and variance gates -/

/-- Squared RMS of the all-zero frame is 0. -/
theorem rmsSqOf_zero (size : ℕ) : rmsSqOf (fun _ => 0) size = 0 := by
  unfold rmsSqOf
  simp

/-- Correlation of a constant frame is exactly 1 at every lag. -/
theorem corrAt_const (c : ℚ) (halfSize offset : ℕ) :
    corrAt (fun _ => c) halfSize offset = 1 := by
  unfold corrAt
  simp

/-- On a constant frame the loop never adopts a lag: every correlation equals
1, which never strictly exceeds the incoming lastCorrelation of 1. -/
theorem foldl_acStep_const (c : ℚ) (halfSize : ℕ) (L : List ℕ) :
    L.foldl (acStep (fun _ => c) halfSize) ⟨-1, 0.8, 1⟩ = ⟨-1, 0.8, 1⟩ := by
  induction L with
  | nil => rfl
  | cons a tl ih =>
    rw [List.foldl_cons]
    have hstep : acStep (fun _ => c) halfSize ⟨-1, 0.8, 1⟩ a = ⟨-1, 0.8, 1⟩ := by
      rw [acStep_eq, corrAt_const, if_neg (by norm_num)]
    rw [hstep]
    exact ih

/-- Result state of the loop on a constant frame. -/
theorem acFinal_const (c : ℚ) (size : ℕ) (sampleRate : ℚ) :
    acFinal (fun _ => c) size sampleRate = ⟨-1, 0.8, 1⟩ :=
  foldl_acStep_const c (size / 2) (acOffsets size sampleRate)

/-- A constant frame is always classified unvoiced, whichever gate or loop
branch is taken. -/
theorem autoCorrelate_const (c : ℚ) (size : ℕ) (sampleRate : ℚ) :
    autoCorrelate (fun _ => c) size sampleRate = -1 := by
  unfold autoCorrelate
  rw [acFinal_const]
  norm_num

/-- Subsample count of the every-4th loop: one iteration per started block. -/
theorem stride_length (n step : ℕ) : (stride n step).length = (n + step - 1) / step := by
  unfold stride
  simp

/-- Mean over the every-4th subsample of a constant frame is that constant,
whenever the frame length is a positive multiple of 4. -/
theorem meanOf_const (c : ℚ) (size : ℕ) (h4 : 4 ∣ size) (h0 : size ≠ 0) :
    meanOf (fun _ => c) size = c := by
  unfold meanOf
  rw [List.map_const', List.sum_replicate, stride_length, nsmul_eq_mul]
  obtain ⟨k, rfl⟩ := h4
  have hk : k ≠ 0 := by omega
  have hlen : (4 * k + 4 - 1) / 4 = k := by omega
  rw [hlen]
  have hkQ : (k : ℚ) ≠ 0 := by exact_mod_cast hk
  push_cast
  field_simp

/-- Variance over the every-4th subsample of a constant frame is 0 whenever the
frame length is a multiple of 4 (including the empty frame). -/
theorem varOf_const (c : ℚ) (size : ℕ) (h4 : 4 ∣ size) :
    varOf (fun _ => c) size = 0 := by
  rcases eq_or_ne size 0 with rfl | h0
  · unfold varOf
    simp [stride]
  · unfold varOf
    rw [meanOf_const c size h4 h0]
    simp

/-! ### C9: gating of silent and constant frames -/

/-- C9.  Every all-zero frame is returned unvoiced, with the squared-RMS energy
below the 0.01 threshold of the energy gate; and every constant non-zero frame
is returned unvoiced, with the subsample variance below the 1e-4 threshold of
the variance gate whenever the frame length is a multiple of 4 (as the fixed
power-of-two frame length of the app always is).  Both gates run before the
correlation loop. -/
theorem estimator_gates (size : ℕ) (sampleRate c : ℚ) (hc : c ≠ 0) :
    (autoCorrelate (fun _ => 0) size sampleRate = -1 ∧ rmsSqOf (fun _ => 0) size < 0.01 ^ 2) ∧
    (autoCorrelate (fun _ => c) size sampleRate = -1 ∧
      (4 ∣ size → varOf (fun _ => c) size < 0.0001)) := by
  refine ⟨⟨autoCorrelate_const 0 size sampleRate, ?_⟩,
    autoCorrelate_const c size sampleRate, fun h4 => ?_⟩
  · rw [rmsSqOf_zero]; norm_num
  · rw [varOf_const c size h4]; norm_num

/-- Witness for C9 at a concrete input: frame value 1, length 8, rate 44100. -/
theorem estimator_gates_witness :
    (1:ℚ) ≠ 0 ∧ 4 ∣ 8 ∧ autoCorrelate (fun _ => (1:ℚ)) 8 44100 = -1 ∧
      varOf (fun _ => (1:ℚ)) 8 < 0.0001 := by
  have h := estimator_gates 8 44100 1 (by norm_num)
  exact ⟨by norm_num, by norm_num, h.2.1, h.2.2 (by norm_num)⟩

/-! ### C1: the warm-up off-by-one of the range accumulator -/

/-- C1.  Evaluation of the setStats updater on the accepted smoothed sequence
150, 90, 300 (all inside the 70..600 band).  The claim and the comment in the
source say the first two accepted values update only the sample count, which
would leave min = max = 300; but the gate newValidSamples >= 2 counts the
current sample, so the second value 90 already moves min and max, and the run
ends with min = 90. -/
theorem statsRun_second_sample_moves_min :
    statsRun [150, 90, 300] = ⟨((90:ℚ) : WithTop ℚ), 300, 3⟩ ∧
      (statsRun [150, 90, 300]).min ≠ ((300:ℚ) : WithTop ℚ) := by
  have hrun : statsRun [150, 90, 300] = ⟨((90:ℚ) : WithTop ℚ), 300, 3⟩ := by
    unfold statsRun
    simp only [List.foldl_cons, List.foldl_nil]
    have h1 : statsUpdate statsInit 150 = ⟨⊤, 0, 1⟩ := by
      unfold statsUpdate statsInit isValidSample
      norm_num
    have h2 : statsUpdate ⟨⊤, 0, 1⟩ 90 = ⟨((90:ℚ) : WithTop ℚ), 90, 2⟩ := by
      unfold statsUpdate isValidSample
      norm_num
    have h3 : statsUpdate ⟨((90:ℚ) : WithTop ℚ), 90, 2⟩ 300 = ⟨((90:ℚ) : WithTop ℚ), 300, 3⟩ := by
      unfold statsUpdate isValidSample
      norm_num
      norm_cast
    rw [h1, h2, h3]
  refine ⟨hrun, ?_⟩
  rw [hrun]
  simp only [ne_eq, WithTop.coe_eq_coe]
  norm_num

/-! ### C2: the voice-type ladder -/

/-- Unfolded form of detectVoiceType, with the let binding zeta-reduced. -/
theorem detectVoiceType_eq (minHz maxHz : ℚ) :
    detectVoiceType minHz maxHz =
      (if (minHz + maxHz) / 2 < 130 then VoiceType.bass
       else if (minHz + maxHz) / 2 < 165 then .baritone
       else if (minHz + maxHz) / 2 < 260 then .tenor
       else if (minHz + maxHz) / 2 < 350 then .alto
       else if (minHz + maxHz) / 2 < 440 then .mezzoSoprano
       else .soprano) := rfl

/-- C2.  The classifier computes the midpoint of min and max and applies the
six-row ladder top-down with first match winning, where the boundary value of
each row belongs to the next voice type; in particular a midpoint of exactly
130 is classified baritone. -/
theorem detectVoiceType_ladder :
    (∀ minHz maxHz : ℚ, detectVoiceType minHz maxHz = ladderSpec ((minHz + maxHz) / 2)) ∧
    (∀ minHz maxHz : ℚ, (minHz + maxHz) / 2 = 130 →
      detectVoiceType minHz maxHz = .baritone) := by
  have hmain : ∀ minHz maxHz : ℚ,
      detectVoiceType minHz maxHz = ladderSpec ((minHz + maxHz) / 2) := by
    intro mn mx
    rw [detectVoiceType_eq]
    unfold ladderSpec
    by_cases h1 : (mn + mx) / 2 < 130
    · simp [h1]
    by_cases h2 : (mn + mx) / 2 < 165
    · simp [h1, h2, not_lt.1 h1]
    by_cases h3 : (mn + mx) / 2 < 260
    · simp [h1, h2, h3, not_lt.1 h2]
    by_cases h4 : (mn + mx) / 2 < 350
    · simp [h1, h2, h3, h4, not_lt.1 h3]
    by_cases h5 : (mn + mx) / 2 < 440
    · simp [h1, h2, h3, h4, h5, not_lt.1 h4]
    · simp [h1, h2, h3, h4, h5]
  refine ⟨hmain, fun mn mx h => ?_⟩
  rw [hmain, h]
  unfold ladderSpec
  norm_num

/-- Witness for C2 at the boundary: min = max = 130 gives midpoint exactly 130
and classification baritone. -/
theorem detectVoiceType_ladder_witness :
    ((130:ℚ) + 130) / 2 = 130 ∧ detectVoiceType 130 130 = .baritone :=
  ⟨by norm_num, detectVoiceType_ladder.2 130 130 (by norm_num)⟩

/-! ### C5: finish with no recorded audio -/

/-- C5.  When the accumulated chunk list is empty, handleFinish lands in the
no-audio-captured error state with the results screen shown, no analysis data,
and no upload or analyze network call issued, whatever the range statistics
(in particular the valid-sample count) and whatever the backend would have
answered. -/
theorem handleFinish_empty_chunks (stats : Stats) (uploadReply : Except String String)
    (analyzeReply : Except String ResultPayload) :
    handleFinish ⟨stats, []⟩ uploadReply analyzeReply =
      { error := some noAudioMsg, showResults := true, analysisData := none, calls := [] } :=
  rfl

/-! ### C6: the exponential smoother -/

/-- C6.  The first update after initialization returns its input unchanged;
once initialized with alpha = 0.15, an update returns
0.15 * input + (1 - 0.15) * value, which lies strictly between the previous
value and the new input whenever they differ. -/
theorem smoother_first_and_between :
    (∀ v : ℚ, ((ExponentialSmoothing.make 0.15).update v).1 = v) ∧
    (∀ (s : ExponentialSmoothing) (v : ℚ), s.isInit = true → s.alpha = 0.15 →
      (s.update v).1 = 0.15 * v + (1 - 0.15) * s.value ∧
      (v ≠ s.value → min s.value v < (s.update v).1 ∧ (s.update v).1 < max s.value v)) := by
  constructor
  · intro v
    rfl
  · intro s v hinit halpha
    have hupd : (s.update v).1 = 0.15 * v + (1 - 0.15) * s.value := by
      unfold ExponentialSmoothing.update
      rw [hinit, if_neg (by simp), halpha]
    refine ⟨hupd, fun hne => ?_⟩
    rcases lt_or_gt_of_ne hne with h | h
    · rw [min_eq_right h.le, max_eq_left h.le]
      constructor <;> rw [hupd] <;> linarith
    · rw [min_eq_left h.le, max_eq_right h.le]
      constructor <;> rw [hupd] <;> linarith

/-! ### Helper lemmas about the median filter buffer -/

/-- Folding push over the empty list changes nothing. -/
theorem pushAll_nil (f : MedianFilter) : f.pushAll [] = f := rfl

/-- Folding push over a cons processes the head first. -/
theorem pushAll_cons (f : MedianFilter) (v : ℚ) (tl : List ℚ) :
    f.pushAll (v :: tl) = (f.push v).pushAll tl := rfl

/-- Let-free form of push. -/
theorem push_eq (f : MedianFilter) (value : ℚ) :
    f.push value =
      ⟨f.size, if (f.buffer ++ [value]).length > f.size then (f.buffer ++ [value]).tail
        else f.buffer ++ [value]⟩ := rfl

/-- Let-free form of get. -/
theorem get_eq (f : MedianFilter) :
    f.get =
      if f.buffer.length = 0 then 0
      else if (f.buffer.insertionSort (· ≤ ·)).length % 2 = 1 then
        (f.buffer.insertionSort (· ≤ ·)).getD ((f.buffer.insertionSort (· ≤ ·)).length / 2) 0
      else
        ((f.buffer.insertionSort (· ≤ ·)).getD
            ((f.buffer.insertionSort (· ≤ ·)).length / 2 - 1) 0 +
          (f.buffer.insertionSort (· ≤ ·)).getD
            ((f.buffer.insertionSort (· ≤ ·)).length / 2) 0) / 2 := rfl

/-- After pushing a list into a filter whose buffer respects the size bound,
the buffer holds the concatenation trimmed from the front to the size bound:
only the newest size values survive. -/
theorem pushAll_buffer (l : List ℚ) : ∀ (f : MedianFilter), f.buffer.length ≤ f.size →
    (f.pushAll l).buffer = (f.buffer ++ l).drop (f.buffer.length + l.length - f.size) := by
  induction l with
  | nil =>
    intro f hf
    rw [pushAll_nil]
    simp [Nat.sub_eq_zero_of_le hf]
  | cons v tl ih =>
    intro f hf
    rw [pushAll_cons]
    by_cases hcase : (f.buffer ++ [v]).length > f.size
    · have hlen : f.buffer.length = f.size := by
        simp only [List.length_append, List.length_cons, List.length_nil] at hcase
        omega
      have hpush : f.push v = ⟨f.size, (f.buffer ++ [v]).tail⟩ := by
        rw [push_eq, if_pos hcase]
      have htail : ((f.buffer ++ [v]).tail).length = f.size := by
        simp only [List.length_tail, List.length_append, List.length_cons, List.length_nil]
        omega
      rw [hpush, ih ⟨f.size, (f.buffer ++ [v]).tail⟩ (le_of_eq htail)]
      simp only [htail]
      have hamt : f.size + tl.length - f.size = tl.length := by omega
      rw [hamt]
      rw [← List.tail_append_of_ne_nil (by simp : f.buffer ++ [v] ≠ [])]
      rw [← List.drop_one, List.drop_drop]
      rw [List.append_assoc, List.singleton_append]
      congr 1
      simp only [List.length_cons]
      omega
    · have hpush : f.push v = ⟨f.size, f.buffer ++ [v]⟩ := by
        rw [push_eq, if_neg hcase]
      have hle : (f.buffer ++ [v]).length ≤ f.size := by omega
      rw [hpush, ih ⟨f.size, f.buffer ++ [v]⟩ hle]
      rw [List.append_assoc, List.singleton_append]
      congr 1
      simp only [List.length_append, List.length_cons, List.length_nil]
      omega

/-- A sorted permutation of six copies of v and one w has v in the middle. -/
theorem sorted_middle_of_outlier (l : List ℚ) (v w : ℚ)
    (hperm : l.Perm (List.replicate 6 v ++ [w])) :
    (l.insertionSort (· ≤ ·)).getD 3 0 = v := by
  rcases le_total w v with hwv | hvw
  · have hsorted : List.Sorted (· ≤ ·) (w :: List.replicate 6 v) := by
      rw [List.sorted_cons]
      refine ⟨fun b hb => ?_, ?_⟩
      · rw [List.mem_replicate] at hb
        rw [hb.2]
        exact hwv
      · exact List.pairwise_replicate.2 (Or.inr le_rfl)
    have heq : l.insertionSort (· ≤ ·) = w :: List.replicate 6 v := by
      refine List.eq_of_perm_of_sorted ?_ (List.sorted_insertionSort _ l) hsorted
      exact (List.perm_insertionSort _ l).trans (hperm.trans List.perm_append_comm)
    rw [heq]
    rfl
  · have hsorted : List.Sorted (· ≤ ·) (List.replicate 6 v ++ [w]) := by
      show List.Sorted (· ≤ ·) ([v, v, v, v, v, v] ++ [w])
      simp [List.sorted_cons, hvw]
    have heq : l.insertionSort (· ≤ ·) = List.replicate 6 v ++ [w] := by
      refine List.eq_of_perm_of_sorted ?_ (List.sorted_insertionSort _ l) hsorted
      exact (List.perm_insertionSort _ l).trans hperm
    rw [heq]
    rfl

/-! ### C7: outlier invariance of the median filter -/

/-- C7.  Pushing seven consecutive values, six of them equal to v and one an
arbitrary outlier w, into the size-7 median filter in any state respecting its
size bound, leaves the filter returning exactly v. -/
theorem medianFilter_outlier_invariant (f : MedianFilter) (hsize : f.size = 7)
    (hlen : f.buffer.length ≤ 7) (l : List ℚ) (v w : ℚ)
    (hperm : l.Perm (List.replicate 6 v ++ [w])) :
    (f.pushAll l).get = v := by
  have hllen : l.length = 7 := by
    rw [hperm.length_eq]
    simp
  have hbuf : (f.pushAll l).buffer = l := by
    rw [pushAll_buffer l f (by omega)]
    have : f.buffer.length + l.length - f.size = f.buffer.length := by omega
    rw [this, List.drop_left]
  rw [get_eq, hbuf, List.length_insertionSort, hllen]
  rw [if_neg (by norm_num), if_pos (by norm_num)]
  have h72 : (7:ℕ) / 2 = 3 := by norm_num
  rw [h72]
  exact sorted_middle_of_outlier l v w hperm

/-- Witness for C7: a fresh size-7 filter fed six copies of 100 and the
outlier 999 still returns 100. -/
theorem medianFilter_outlier_invariant_witness :
    (MedianFilter.make 7).size = 7 ∧ (MedianFilter.make 7).buffer.length ≤ 7 ∧
    ([100, 100, 100, 999, 100, 100, 100] : List ℚ).Perm
      (List.replicate 6 100 ++ [999]) ∧
    ((MedianFilter.make 7).pushAll [100, 100, 100, 999, 100, 100, 100]).get = 100 := by
  have hperm : ([100, 100, 100, 999, 100, 100, 100] : List ℚ).Perm
      (List.replicate 6 100 ++ [999]) := by
    have hswap : ([(999:ℚ)] ++ [100, 100, 100]).Perm ([(100:ℚ), 100, 100] ++ [999]) :=
      List.perm_append_comm
    have h := List.Perm.append_left [(100:ℚ), 100, 100] hswap
    simpa using h
  exact ⟨rfl, by simp [MedianFilter.make], hperm,
    medianFilter_outlier_invariant (MedianFilter.make 7) rfl (by simp [MedianFilter.make])
      _ 100 999 hperm⟩

/-! ### C10: partial windows of the median filter -/

/-- C10.  Before the window fills, get returns the median of exactly the values
pushed so far: pushing at most 7 values into a fresh size-7 filter leaves the
buffer equal to the pushed list, and get computes its median (0 when empty,
middle of the sort when odd, mean of the two middle sorted values when even). -/
theorem medianFilter_partial_window (l : List ℚ) (h : l.length ≤ 7) :
    ((MedianFilter.make 7).pushAll l).get = specMedian l := by
  have hbuf : ((MedianFilter.make 7).pushAll l).buffer = l := by
    rw [pushAll_buffer l (MedianFilter.make 7) (by simp [MedianFilter.make])]
    simp only [MedianFilter.make, List.length_nil, List.nil_append, Nat.zero_add]
    rw [Nat.sub_eq_zero_of_le h, List.drop_zero]
  rw [get_eq, hbuf]
  unfold specMedian
  simp only [List.length_insertionSort]

/-- Witness for C10: pushing the two values 10 and 20 gives their mean 15. -/
theorem medianFilter_partial_window_witness :
    ([10, 20] : List ℚ).length ≤ 7 ∧
      ((MedianFilter.make 7).pushAll [10, 20]).get = specMedian [10, 20] :=
  ⟨by norm_num, medianFilter_partial_window [10, 20] (by norm_num)⟩

/-- Witness for C6 at a concrete initialized state: previous value 100, input
200, output 115 strictly between them. -/
theorem smoother_first_and_between_witness :
    (⟨0.15, 100, true⟩ : ExponentialSmoothing).isInit = true ∧
    (⟨0.15, 100, true⟩ : ExponentialSmoothing).alpha = 0.15 ∧
    (200:ℚ) ≠ (⟨0.15, 100, true⟩ : ExponentialSmoothing).value ∧
    ((⟨0.15, 100, true⟩ : ExponentialSmoothing).update 200).1 =
      0.15 * 200 + (1 - 0.15) * 100 ∧
    min (100:ℚ) 200 < ((⟨0.15, 100, true⟩ : ExponentialSmoothing).update 200).1 ∧
    ((⟨0.15, 100, true⟩ : ExponentialSmoothing).update 200).1 < max (100:ℚ) 200 := by
  have h := smoother_first_and_between.2 ⟨0.15, 100, true⟩ 200 rfl rfl
  have h2 := h.2 (by norm_num)
  exact ⟨rfl, rfl, by norm_num, h.1, h2.1, h2.2⟩

/-! ### Helper lemmas about the range accumulator -/

/-- Let-free form of the setStats updater. -/
theorem statsUpdate_eq (prev : Stats) (smoothed : ℚ) :
    statsUpdate prev smoothed =
      if isValidSample prev smoothed then
        ⟨min (if prev.min = ⊤ then (smoothed : WithTop ℚ) else prev.min) (smoothed : WithTop ℚ),
          max (if prev.max = 0 then smoothed else prev.max) smoothed,
          prev.validSamples + 1⟩
      else ⟨prev.min, prev.max, prev.validSamples + 1⟩ := by
  unfold statsUpdate
  split <;> rfl

/-- Unfolding step for the list of accepted values. -/
theorem acceptedVals_cons (s : Stats) (a : ℚ) (tl : List ℚ) :
    acceptedVals s (a :: tl) =
      if isValidSample s a then a :: acceptedVals (statsUpdate s a) tl
      else acceptedVals (statsUpdate s a) tl := rfl

/-- Every update advances the sample count by one. -/
theorem statsUpdate_count (s : Stats) (v : ℚ) :
    (statsUpdate s v).validSamples = s.validSamples + 1 := by
  rw [statsUpdate_eq]
  split <;> rfl

/-- A run advances the sample count by the length of its input. -/
theorem foldl_statsUpdate_count (l : List ℚ) : ∀ s : Stats,
    (l.foldl statsUpdate s).validSamples = s.validSamples + l.length := by
  induction l with
  | nil => intro s; rfl
  | cons a tl ih =>
    intro s
    rw [List.foldl_cons, ih (statsUpdate s a), statsUpdate_count]
    simp only [List.length_cons]
    omega

/-- The running minimum never increases. -/
theorem statsUpdate_min_le (s : Stats) (v : ℚ) : (statsUpdate s v).min ≤ s.min := by
  rw [statsUpdate_eq]
  by_cases hgate : isValidSample s v
  · rw [if_pos hgate]
    by_cases htop : s.min = ⊤
    · rw [htop]
      exact le_top
    · rw [if_neg htop]
      exact min_le_left _ _
  · rw [if_neg hgate]

/-- The running maximum never decreases: when the 0 sentinel is replaced the
gate guarantees the accepted value exceeds 70. -/
theorem statsUpdate_max_ge (s : Stats) (v : ℚ) : s.max ≤ (statsUpdate s v).max := by
  rw [statsUpdate_eq]
  by_cases hgate : isValidSample s v
  · rw [if_pos hgate]
    by_cases hzero : s.max = 0
    · rw [if_pos hzero]
      show s.max ≤ max v v
      rw [hzero]
      have h70 := hgate.2.2
      have hv : (0:ℚ) ≤ v := le_of_lt (lt_trans (by norm_num) h70)
      exact le_trans hv (le_max_left v v)
    · rw [if_neg hzero]
      exact le_max_left _ _
  · rw [if_neg hgate]

/-- The running minimum never increases along a whole run. -/
theorem foldl_statsUpdate_min (l : List ℚ) : ∀ s : Stats,
    (l.foldl statsUpdate s).min ≤ s.min := by
  induction l with
  | nil => intro s; exact le_rfl
  | cons a tl ih =>
    intro s
    rw [List.foldl_cons]
    exact le_trans (ih (statsUpdate s a)) (statsUpdate_min_le s a)

/-- The running maximum never decreases along a whole run. -/
theorem foldl_statsUpdate_max (l : List ℚ) : ∀ s : Stats,
    s.max ≤ (l.foldl statsUpdate s).max := by
  induction l with
  | nil => intro s; exact le_rfl
  | cons a tl ih =>
    intro s
    rw [List.foldl_cons]
    exact le_trans (statsUpdate_max_ge s a) (ih (statsUpdate s a))

/-- An accepted value is bracketed by min and max immediately after its own
update. -/
theorem statsUpdate_bounds (s : Stats) (v : ℚ) (hgate : isValidSample s v) :
    (statsUpdate s v).min ≤ (v : WithTop ℚ) ∧ v ≤ (statsUpdate s v).max := by
  rw [statsUpdate_eq, if_pos hgate]
  exact ⟨min_le_right _ _, le_max_right _ _⟩

/-- Every value accepted during a run is bracketed by the final min and max. -/
theorem foldl_statsUpdate_accepted_bounds (l : List ℚ) : ∀ (s : Stats) (v : ℚ),
    v ∈ acceptedVals s l →
      (l.foldl statsUpdate s).min ≤ (v : WithTop ℚ) ∧ v ≤ (l.foldl statsUpdate s).max := by
  induction l with
  | nil =>
    intro s v hv
    simp [acceptedVals] at hv
  | cons a tl ih =>
    intro s v hv
    rw [List.foldl_cons]
    rw [acceptedVals_cons] at hv
    by_cases hgate : isValidSample s a
    · rw [if_pos hgate] at hv
      rcases List.mem_cons.1 hv with rfl | hv2
      · have hstep := statsUpdate_bounds s v hgate
        exact ⟨le_trans (foldl_statsUpdate_min tl (statsUpdate s v)) hstep.1,
          le_trans hstep.2 (foldl_statsUpdate_max tl (statsUpdate s v))⟩
      · exact ih (statsUpdate s a) v hv2
    · rw [if_neg hgate] at hv
      exact ih (statsUpdate s a) v hv

/-! ### C4: invariant of the range statistics -/

/-- C4.  In every state reachable by feeding a session of smoothed values:
while no valid sample has been counted, min and max still hold their sentinels
(top, standing for Infinity, and 0); and every value accepted by the min/max
gate during the run is bracketed by the final min and max. -/
theorem range_stats_invariant (l : List ℚ) :
    ((statsRun l).validSamples = 0 → (statsRun l).min = ⊤ ∧ (statsRun l).max = 0) ∧
    (∀ v ∈ acceptedVals statsInit l,
      (statsRun l).min ≤ (v : WithTop ℚ) ∧ v ≤ (statsRun l).max) := by
  constructor
  · intro h0
    have hcount := foldl_statsUpdate_count l statsInit
    unfold statsRun at h0 ⊢
    rw [hcount] at h0
    have : l = [] := List.length_eq_zero.1 (by simpa [statsInit] using h0)
    subst this
    exact ⟨rfl, rfl⟩
  · intro v hv
    exact foldl_statsUpdate_accepted_bounds l statsInit v hv

/-- Witness for C4: feeding 100 then 200, the value 200 is accepted and the
final statistics bracket it. -/
theorem range_stats_invariant_witness :
    (200:ℚ) ∈ acceptedVals statsInit [100, 200] ∧
      (statsRun [100, 200]).min ≤ ((200:ℚ) : WithTop ℚ) ∧
      (200:ℚ) ≤ (statsRun [100, 200]).max := by
  have h1 : ¬ isValidSample statsInit 100 := by
    unfold isValidSample statsInit
    norm_num
  have h2 : statsUpdate statsInit 100 = ⟨⊤, 0, 1⟩ := by
    unfold statsUpdate statsInit isValidSample
    norm_num
  have h3 : isValidSample ⟨⊤, 0, 1⟩ 200 := by
    unfold isValidSample
    norm_num
  have hmem : (200:ℚ) ∈ acceptedVals statsInit [100, 200] := by
    rw [acceptedVals_cons, if_neg h1, h2, acceptedVals_cons, if_pos h3]
    exact List.mem_cons_self _ _
  exact ⟨hmem, (range_stats_invariant [100, 200]).2 200 hmem⟩

/-! ### Helper lemmas about the note mapper -/

/-- Rounded semitone distance of 261.63 Hz from A4: the ratio to 440 lies
strictly between 2 to the power -19/24 and 2 to the power -17/24, as certified
by two exact rational power inequalities, so 12 times its base-2 logarithm lies
in the half-open interval from -9.5 to -8.5 and rounds to -9. -/
theorem round_semitones_C4 : round (12 * Real.logb 2 ((26163:ℝ) / 44000)) = -9 := by
  have hA : ((26163:ℝ)/44000) ^ 24 * 2 ^ 17 < 1 := by norm_num
  have hB : (1:ℝ) ≤ ((26163:ℝ)/44000) ^ 24 * 2 ^ 19 := by norm_num
  have h2 : Real.logb 2 2 = 1 := Real.logb_self_eq_one (by norm_num)
  have hexp17 : Real.logb 2 (((26163:ℝ)/44000) ^ 24 * 2 ^ 17) =
      24 * Real.logb 2 ((26163:ℝ)/44000) + 17 := by
    rw [Real.logb_mul (by positivity) (by positivity), Real.logb_pow, Real.logb_pow, h2]
    ring
  have hexp19 : Real.logb 2 (((26163:ℝ)/44000) ^ 24 * 2 ^ 19) =
      24 * Real.logb 2 ((26163:ℝ)/44000) + 19 := by
    rw [Real.logb_mul (by positivity) (by positivity), Real.logb_pow, Real.logb_pow, h2]
    ring
  have hup : 24 * Real.logb 2 ((26163:ℝ)/44000) + 17 < 0 := by
    rw [← hexp17]
    exact Real.logb_neg (by norm_num) (by positivity) hA
  have hlo : 0 ≤ 24 * Real.logb 2 ((26163:ℝ)/44000) + 19 := by
    rw [← hexp19]
    exact Real.logb_nonneg (by norm_num) hB
  rw [round_eq]
  refine Int.floor_eq_iff.2 ⟨?_, ?_⟩ <;> push_cast <;> linarith

/-! ### C8: the note mapper -/

/-- C8.  The note mapper sends 440 Hz to letter class A in octave 4, sends
261.63 Hz to letter class C in octave 4, and sends every nonpositive frequency
to the no-note sentinel rather than a computed note. -/
theorem hzToNote_spec :
    hzToNote 440 = some ⟨"A", 4⟩ ∧ hzToNote 261.63 = some ⟨"C", 4⟩ ∧
      ∀ f : ℝ, f ≤ 0 → hzToNote f = none := by
  refine ⟨?_, ?_, fun f hf => ?_⟩
  · unfold hzToNote
    rw [if_neg (by norm_num)]
    have h1 : (440:ℝ)/440 = 1 := by norm_num
    simp only [h1, Real.logb_one, mul_zero, round_zero]
    rfl
  · unfold hzToNote
    rw [if_neg (by norm_num)]
    have h1 : (261.63:ℝ)/440 = (26163:ℝ)/44000 := by norm_num
    simp only [h1, round_semitones_C4]
    rfl
  · unfold hzToNote
    rw [if_pos hf]

/-- Witness for C8 at a nonpositive frequency. -/
theorem hzToNote_spec_witness : (-1:ℝ) ≤ 0 ∧ hzToNote (-1) = none :=
  ⟨by norm_num, hzToNote_spec.2.2 (-1) (by norm_num)⟩

end SimplyQuiz
